import Mathlib

/-!
Verification of the `bpdaily` daily blood-pressure CSV collator.

This file gives a shallow embedding of the record-processing pipeline of
`dlycsv/daily.go`: timestamp normalization (`convertBPDateTimes`), the
ascending sort on field 0, the same-day merge (`combineRecordsForSameDay`),
the discard/trim pass (`discardMarkedRecords`) and the header builder
(`buildHeaderRecord`), together with theorems settling the specification's
claims about them.

Records are modelled as `List String` (one string per CSV field) and record
sets as `List (List String)`.  Go's in-place mutation is rendered as explicit
list transformation; `sort.Slice` (an unspecified comparison sort driven by
`records[i][0] < records[j][0]`) is modelled by `List.insertionSort` on the
same key.  Go string comparison is byte-lexicographic; all compared keys here
are ASCII (normalized timestamps or the discard marker), where Lean's
character-lexicographic `String` order coincides with it.
-/

/-- All records that are to be thrown away later are tagged with a ZZZZ value
in their first field (`discardMarker` in `daily.go`). -/
def discardMarker : String := "ZZZZ"

/-- Field 0 of a record (`record[0]` in Go; total here, defaulting to `""`
for the empty record, which the pipeline never reads). -/
def field0 (r : List String) : String :=
  r.headD ""

/-- The day portion of a record's first field (`record[0][0:10]` in Go). -/
def dayOf (r : List String) : String :=
  String.mk ((field0 r).data.take 10)

/-! ### Model of Go `time.Parse("Jan 02 2006 15:04:05", s)` and
`Format("2006-01-02 15:04:05")`

Faithful to Go's `time/format.go` at character granularity: the month is a
case-insensitive three-letter-name lookup, the day/minute/second are exactly
two digits, the year exactly four digits, the hour one or two digits, a space
in the layout consumes one-or-more spaces (or end of input), and components
are range-checked (hour < 24, minute < 60, second < 60, 1 ≤ day ≤ days in
month).  Trailing unconsumed text is an error. -/

/-- A parsed date-time value. -/
structure BPDateTime where
  year : Nat
  month : Nat
  day : Nat
  hour : Nat
  minute : Nat
  second : Nat
deriving DecidableEq, Repr

/-- ASCII digit test (Go's `isDigit`). -/
def isDigitC (c : Char) : Bool :=
  '0' ≤ c && c ≤ '9'

/-- Numeric value of an ASCII digit. -/
def digitVal (c : Char) : Nat :=
  c.toNat - 48

/-- Case-insensitive character match as in Go's `match`: equal, or equal
after OR-ing in bit 0x20 with the result being a lowercase letter. -/
def ciEq (c1 c2 : Char) : Bool :=
  c1 = c2 ||
    (c1.toNat ||| 32 = c2.toNat ||| 32 && 97 ≤ c1.toNat ||| 32 && c1.toNat ||| 32 ≤ 122)

/-- Does the value (second list) start with the pattern (first list),
case-insensitively?  Mirrors Go's `match(val[0:len(v)], v)` with the
`len(val) >= len(v)` bound folded in. -/
def matchCI : List Char → List Char → Bool
  | [], _ => true
  | _ :: _, [] => false
  | p :: ps, v :: vs => ciEq v p && matchCI ps vs

/-- Go's `shortMonthNames` table. -/
def shortMonthNames : List String :=
  ["Jan", "Feb", "Mar", "Apr", "May", "Jun", "Jul", "Aug", "Sep", "Oct", "Nov", "Dec"]

/-- Go's `lookup(tab, val)`: first table entry that is a case-insensitive
pattern of the start of `val`, returning its index and the rest of `val`. -/
def lookupTab (cs : List Char) : Nat → List String → Option (Nat × List Char)
  | _, [] => none
  | i, v :: vs =>
    if matchCI v.data cs then some (i, cs.drop v.data.length) else lookupTab cs (i + 1) vs

/-- Go's `skip(value, " ")`: a space in the layout requires the value to be
empty or start with a space, and consumes all leading spaces. -/
def skipSpace : List Char → Option (List Char)
  | [] => some []
  | c :: rest => if c = ' ' then some (rest.dropWhile (· = ' ')) else none

/-- Go's `skip` for a literal non-space layout character. -/
def expectChar (c : Char) : List Char → Option (List Char)
  | [] => none
  | x :: rest => if x = c then some rest else none

/-- Go's `getnum` with the fixed flag set: exactly two digits. -/
def getnum2 : List Char → Option (Nat × List Char)
  | c1 :: c2 :: rest =>
    if isDigitC c1 && isDigitC c2 then some (digitVal c1 * 10 + digitVal c2, rest) else none
  | _ => none

/-- Go's `getnum` with the fixed flag unset: one or two digits. -/
def getnum12 : List Char → Option (Nat × List Char)
  | [] => none
  | [c1] => if isDigitC c1 then some (digitVal c1, []) else none
  | c1 :: c2 :: rest =>
    if isDigitC c1 then
      if isDigitC c2 then some (digitVal c1 * 10 + digitVal c2, rest)
      else some (digitVal c1, c2 :: rest)
    else none

/-- Go's `stdLongYear` ("2006"): exactly four digits. -/
def getYear4 : List Char → Option (Nat × List Char)
  | c1 :: c2 :: c3 :: c4 :: rest =>
    if isDigitC c1 && isDigitC c2 && isDigitC c3 && isDigitC c4 then
      some (((digitVal c1 * 10 + digitVal c2) * 10 + digitVal c3) * 10 + digitVal c4, rest)
    else none
  | _ => none

/-- Go's `isLeap`. -/
def isLeapYear (y : Nat) : Bool :=
  y % 4 = 0 && (y % 100 ≠ 0 || y % 400 = 0)

/-- Go's `daysIn(m, year)` for month numbers 1–12. -/
def daysIn (m y : Nat) : Nat :=
  if m = 2 then (if isLeapYear y then 29 else 28)
  else if m = 4 ∨ m = 6 ∨ m = 9 ∨ m = 11 then 30
  else 31

/-- Model of `time.Parse("Jan 02 2006 15:04:05", s)`: `some` of the parsed
components on success, `none` on any mismatch, range error or trailing text. -/
def goTimeParse (s : String) : Option BPDateTime := do
  let (monIdx, cs1) ← lookupTab s.data 0 shortMonthNames
  let cs2 ← skipSpace cs1
  let (day, cs3) ← getnum2 cs2
  let cs4 ← skipSpace cs3
  let (year, cs5) ← getYear4 cs4
  let cs6 ← skipSpace cs5
  let (hour, cs7) ← getnum12 cs6
  let cs8 ← expectChar ':' cs7
  let (minute, cs9) ← getnum2 cs8
  let cs10 ← expectChar ':' cs9
  let (second, cs11) ← getnum2 cs10
  if cs11 = [] ∧ hour < 24 ∧ minute < 60 ∧ second < 60 ∧
      1 ≤ day ∧ day ≤ daysIn (monIdx + 1) year then
    some ⟨year, monIdx + 1, day, hour, minute, second⟩
  else none

/-- Two-digit zero-padded decimal rendering (Go's `Format` for "01"/"02"/…,
on the in-range values `time.Parse` can produce). -/
def digitsOf2 (n : Nat) : List Char :=
  [Nat.digitChar (n / 10 % 10), Nat.digitChar (n % 10)]

/-- Four-digit zero-padded decimal rendering (Go's `Format` for "2006" on the
0–9999 years `time.Parse` can produce). -/
def digitsOf4 (n : Nat) : List Char :=
  [Nat.digitChar (n / 1000 % 10), Nat.digitChar (n / 100 % 10),
   Nat.digitChar (n / 10 % 10), Nat.digitChar (n % 10)]

/-- Model of `datetime.Format("2006-01-02 15:04:05")`. -/
def goTimeFormat (dt : BPDateTime) : String :=
  String.mk (digitsOf4 dt.year ++ '-' :: digitsOf2 dt.month ++ '-' :: digitsOf2 dt.day ++
    ' ' :: digitsOf2 dt.hour ++ ':' :: digitsOf2 dt.minute ++ ':' :: digitsOf2 dt.second)

/-! ### The pipeline of `daily.go` -/

/-- The body of the `convertBPDateTimes` loop acting on one record: replace
field 0 with the normalized timestamp, or with the discard marker on parse
failure; append the discard marker to a zero-length record. -/
def convertRow (record : List String) : List String :=
  if record.length ≠ 0 then
    match goTimeParse (field0 record) with
    | some datetime => goTimeFormat datetime :: record.tail
    | none => discardMarker :: record.tail
  else
    record ++ [discardMarker]

/-- `convertBPDateTimes`: normalize field 0 of every record to sortable
`YYYY-MM-DD hh:mm:ss` form, or to the discard marker on parse failure; a
zero-length record has the discard marker appended. -/
def convertBPDateTimes (records : List (List String)) : List (List String) :=
  records.map convertRow

/-- Go's `<` on strings (byte-lexicographic; all strings compared by this
program are ASCII, so character-lexicographic coincides), on the character
lists. -/
def strLtB : List Char → List Char → Bool
  | [], [] => false
  | [], _ :: _ => true
  | _ :: _, [] => false
  | a :: as, b :: bs => if a < b then true else if b < a then false else strLtB as bs

/-- Go's `s < t` for strings. -/
def goStringLt (s t : String) : Bool :=
  strLtB s.data t.data

/-- The (non-strict) ordering induced by the sort comparator
`records[i][0] < records[j][0]`: record `a` sorts no later than record `b`
when `b`'s key is not less than `a`'s. -/
def leKey (a b : List String) : Prop :=
  goStringLt (field0 b) (field0 a) = false

instance : DecidableRel leKey := fun _ _ => instDecidableEqBool _ _

/-- The ascending sort on field 0
(`sort.Slice(records, func(i, j) { return records[i][0] < records[j][0] })`).
`sort.Slice` is an unspecified comparison sort; it is modelled by insertion
sort on the same key. -/
def sortByField0 (records : List (List String)) : List (List String) :=
  List.insertionSort leKey records

/-- The loop body of `combineRecordsForSameDay` from its second iteration on:
`acc` is the record at `accumulateIndex` (grown in place so far), `accDate`
the date being accumulated, `count` the readings accumulated so far and
`maxR` the running maximum.  Returns the mutated record set (the grown
accumulator followed by the records it passed over, discard-marked where
merged) and the returned maximum. -/
def combineAux (acc : List String) (accDate : String) (count maxR : Nat) :
    List (List String) → List (List String) × Nat
  | [] => ([acc], maxR)
  | r :: rest =>
    if field0 r = discardMarker then (acc :: r :: rest, maxR)
    else
      if dayOf r = accDate then
        match combineAux (acc ++ r) accDate (count + 1) maxR rest with
        | (a :: t, m) => (a :: (discardMarker :: r.tail) :: t, m)
        | ([], m) => ([discardMarker :: r.tail], m)
      else
        let newMax := if count > maxR then count else maxR
        let (out, m) := combineAux r (dayOf r) 1 newMax rest
        (acc :: out, m)

/-- `combineRecordsForSameDay`: merge consecutive records for the same day
onto the first record of that day, marking the merged-away records for
discard, and return the running maximum number of readings accumulated into
one day (the very first record seeds the accumulator; the loop stops at the
first discard-marked record). -/
def combineRecordsForSameDay (records : List (List String)) : List (List String) × Nat :=
  match records with
  | [] => ([], 1)
  | r :: rest =>
    if field0 r = discardMarker then (r :: rest, 1)
    else combineAux r (dayOf r) 1 1 rest

/-- The backward scan of `discardMarkedRecords` (applied to the reversed
record set): starting from the last record, step over discard-marked records,
but never past index 0 — the single remaining record is kept unexamined. -/
def trimRev : List (List String) → List (List String)
  | [] => []
  | [r] => [r]
  | r :: rest => if field0 r = discardMarker then trimRev rest else r :: rest

/-- `discardMarkedRecords`: re-sort ascending on field 0 (pushing
discard-marked records to the end), then truncate just after the last record
the backward scan stops at. -/
def discardMarkedRecords (records : List (List String)) : List (List String) :=
  (trimRev (sortByField0 records).reverse).reverse

/-- `addHeadingSet`: append one numbered set of the five column names. -/
def addHeadingSet (header : List String) (setNumber : Nat) : List String :=
  header ++
    ["Date Time " ++ toString setNumber,
     "Systolic " ++ toString setNumber,
     "Diastolic " ++ toString setNumber,
     "Pulse " ++ toString setNumber,
     "Note " ++ toString setNumber]

/-- `buildHeaderRecord`: one numbered heading set per reading, numbered from 1. -/
def buildHeaderRecord (maxReadingsInOneDay : Nat) : List String :=
  (List.range maxReadingsInOneDay).foldl (fun header i => addHeadingSet header (i + 1)) []

/-- `sortInput`, as a data transformation: from the body records (everything
after the already-consumed header record) to the written header record and
the written body records.  In `daily.go` the header is written after the
merge pass and before the discard pass; both results are returned here. -/
def sortInput (records : List (List String)) : List String × List (List String) :=
  let converted := convertBPDateTimes records
  let sorted := sortByField0 converted
  let combined := combineRecordsForSameDay sorted
  let header := buildHeaderRecord combined.2
  let body := discardMarkedRecords combined.1
  (header, body)

/-- An effect on the output file, for the orchestration model. -/
inductive OutputEvent
  | openOutput
  | writeHeader (header : List String)
  | writeRow (row : List String)
deriving DecidableEq

/-- The canonical blood pressure CSV column names. -/
def expectedHeader : List String :=
  ["Date Time", "Systolic", "Diastolic", "Pulse", "Note"]

/-- `checkForHeaderRecord` and everything after it, as a trace of output-file
effects plus an optional error: reading the header record from the input
(failing on an empty input), validating it field by field, and only then
opening the output file, writing the widened header and writing the body.
An error before the open step yields an empty trace. -/
def checkForHeaderRecord (input : List (List String)) : List OutputEvent × Option String :=
  match input with
  | [] => ([], some "failed to read blood pressure CSV header record")
  | headerRecord :: body =>
    if headerRecord.length ≠ 5 ∨
        headerRecord.getD 0 "" ≠ "Date Time" ∨
        headerRecord.getD 1 "" ≠ "Systolic" ∨
        headerRecord.getD 2 "" ≠ "Diastolic" ∨
        headerRecord.getD 3 "" ≠ "Pulse" ∨
        headerRecord.getD 4 "" ≠ "Note" then
      ([], some "header record of input file does not match blood pressure CSV format")
    else
      let result := sortInput body
      (OutputEvent.openOutput :: OutputEvent.writeHeader result.1 ::
        result.2.map OutputEvent.writeRow, none)

/-! ### Specification-side definitions -/

/-- The records the merge loop actually processes: the longest prefix with no
discard marker in field 0. -/
def keptPart (l : List (List String)) : List (List String) :=
  l.takeWhile fun r => field0 r ≠ discardMarker

/-- Consecutive same-day runs as `(day, count)` pairs, comparing each record's
day to the first day of the current run, starting from a run for day `d`
already holding `n` records. -/
def dayRunsAux (d : String) (n : Nat) : List (List String) → List (String × Nat)
  | [] => [(d, n)]
  | r :: rest =>
    if dayOf r = d then dayRunsAux d (n + 1) rest
    else (d, n) :: dayRunsAux (dayOf r) 1 rest

/-- Consecutive same-day runs of a record list. -/
def dayRuns : List (List String) → List (String × Nat)
  | [] => []
  | r :: rest => dayRunsAux (dayOf r) 1 rest

/-- The per-day reading counts of a record set: the sizes of the consecutive
same-day runs of the records before the first discard marker (for a record
set sorted on field 0, exactly the number of readings of each day, in day
order). -/
def perDayCounts (l : List (List String)) : List Nat :=
  (dayRuns (keptPart l)).map Prod.snd

/-- Reference recursion for the running maximum of the merge loop. -/
def runMaxAux (d : String) (c m : Nat) : List (List String) → Nat
  | [] => m
  | r :: rest =>
    if field0 r = discardMarker then m
    else if dayOf r = d then runMaxAux d (c + 1) m rest
    else runMaxAux (dayOf r) 1 (max m c) rest

/-- Character-by-character shape check: the string matches when it has
exactly one character per predicate and each character satisfies its
predicate. -/
def matchesShape : List (Char → Bool) → List Char → Bool
  | [], [] => true
  | p :: ps, c :: cs => p c && matchesShape ps cs
  | _, _ => false

/-- The shape of a canonical `YYYY-MM-DD HH:MM:SS` timestamp: 19 characters,
ASCII digits in the date/time positions, fixed separators between them. -/
def timestampShape : List (Char → Bool) :=
  [isDigitC, isDigitC, isDigitC, isDigitC, (· = '-'), isDigitC, isDigitC, (· = '-'),
   isDigitC, isDigitC, (· = ' '), isDigitC, isDigitC, (· = ':'), isDigitC, isDigitC,
   (· = ':'), isDigitC, isDigitC]

/-- A valid canonical `YYYY-MM-DD HH:MM:SS` timestamp string. -/
def canonicalTimestamp (s : String) : Bool :=
  matchesShape timestampShape s.data

/-- The invariant of a row of the working set after timestamp normalization:
it is non-empty, and its first field is either the discard marker or a
canonical normalized timestamp. -/
def NormalizedRow (r : List String) : Prop :=
  r ≠ [] ∧ (field0 r = discardMarker ∨ canonicalTimestamp (field0 r) = true)

/-! ### Order lemmas for the Go string comparison -/

theorem strLtB_iff_lex (xs ys : List Char) :
    strLtB xs ys = true ↔ List.Lex (· < ·) xs ys := by
  induction xs generalizing ys with
  | nil =>
    cases ys with
    | nil =>
      simp only [strLtB, Bool.false_eq_true, false_iff]
      exact List.Lex.not_nil_right _ _
    | cons b bs =>
      simp only [strLtB, true_iff]
      exact List.Lex.nil
  | cons a as ih =>
    cases ys with
    | nil =>
      simp only [strLtB, Bool.false_eq_true, false_iff]
      exact List.Lex.not_nil_right _ _
    | cons b bs =>
      rcases lt_trichotomy a b with h | h | h
      · simp only [strLtB, if_pos h, true_iff]
        exact List.Lex.rel h
      · subst h
        simp only [strLtB, lt_irrefl, if_false, ih]
        constructor
        · exact fun h2 => List.Lex.cons h2
        · intro h2
          cases h2 with
          | cons h3 => exact h3
          | rel h3 => exact absurd h3 (lt_irrefl a)
      · have h1 : ¬a < b := lt_asymm h
        simp only [strLtB, if_neg h1, if_pos h, Bool.false_eq_true, false_iff]
        intro h2
        cases h2 with
        | cons h3 => exact absurd h (lt_irrefl _)
        | rel h3 => exact absurd h3 h1

theorem strLtB_eq_false (xs ys : List Char) :
    strLtB xs ys = false ↔ ¬List.Lex (· < ·) xs ys := by
  rw [← strLtB_iff_lex]
  cases strLtB xs ys <;> simp

instance : IsStrictTotalOrder Char (· < ·) where
  trichotomous := lt_trichotomy
  irrefl := fun a => lt_irrefl a
  trans := fun _ _ _ => lt_trans

instance : IsAsymm Char (· < ·) :=
  ⟨fun _ _ h1 h2 => absurd h2 (lt_asymm h1)⟩

theorem lexLt_trichot (xs ys : List Char) :
    List.Lex (· < ·) xs ys ∨ xs = ys ∨ List.Lex (· < ·) ys xs := by
  have inst : IsTrichotomous (List Char) (List.Lex (· < ·)) := inferInstance
  exact inst.trichotomous xs ys

theorem lexLt_trans {xs ys zs : List Char} (h1 : List.Lex (· < ·) xs ys)
    (h2 : List.Lex (· < ·) ys zs) : List.Lex (· < ·) xs zs := by
  have inst : IsTrans (List Char) (List.Lex (· < ·)) := inferInstance
  exact inst.trans xs ys zs h1 h2

theorem lexLt_asymm {xs ys : List Char} (h : List.Lex (· < ·) xs ys) :
    ¬List.Lex (· < ·) ys xs := by
  have inst : IsAsymm (List Char) (List.Lex (· < ·)) := inferInstance
  exact inst.asymm xs ys h

theorem lexLt_irrefl (xs : List Char) : ¬List.Lex (· < ·) xs xs := by
  have inst : IsIrrefl (List Char) (List.Lex (· < ·)) := inferInstance
  exact inst.irrefl xs

theorem leKey_iff {a b : List String} :
    leKey a b ↔ ¬List.Lex (· < ·) (field0 b).data (field0 a).data := by
  unfold leKey goStringLt
  exact strLtB_eq_false _ _

theorem leKey_total (a b : List String) : leKey a b ∨ leKey b a := by
  rw [leKey_iff, leKey_iff]
  by_cases h : List.Lex (· < ·) (field0 b).data (field0 a).data
  · right
    exact lexLt_asymm h
  · left
    exact h

instance : IsTotal (List String) leKey := ⟨leKey_total⟩

theorem leKey_trans (a b c : List String) (hab : leKey a b) (hbc : leKey b c) :
    leKey a c := by
  rw [leKey_iff] at hab hbc ⊢
  intro hca
  rcases lexLt_trichot (field0 b).data (field0 c).data with h | h | h
  · exact hab (lexLt_trans h hca)
  · rw [← h] at hca
    exact hab hca
  · exact hbc h

instance : IsTrans (List String) leKey := ⟨leKey_trans⟩

theorem sortByField0_sorted (l : List (List String)) :
    List.Sorted leKey (sortByField0 l) :=
  List.sorted_insertionSort leKey l

theorem sortByField0_perm (l : List (List String)) :
    List.Perm (sortByField0 l) l :=
  List.perm_insertionSort leKey l

theorem lex_take (n : Nat) {xs ys : List Char} (h : List.Lex (· < ·) xs ys) :
    xs.take n = ys.take n ∨ List.Lex (· < ·) (xs.take n) (ys.take n) := by
  induction h generalizing n with
  | nil =>
    cases n with
    | zero => left; rfl
    | succ n => right; exact List.Lex.nil
  | cons h ih =>
    cases n with
    | zero => left; rfl
    | succ n =>
      rcases ih n with h2 | h2
      · left
        simp only [List.take_succ_cons, h2]
      · right
        exact List.Lex.cons h2
  | rel h =>
    cases n with
    | zero => left; rfl
    | succ n => right; exact List.Lex.rel h

theorem dayOf_data (r : List String) : (dayOf r).data = (field0 r).data.take 10 :=
  rfl

theorem dayOf_mono {a b : List String} (h : leKey a b) :
    ¬List.Lex (· < ·) (dayOf b).data (dayOf a).data := by
  rw [leKey_iff] at h
  rw [dayOf_data, dayOf_data]
  intro hlex
  rcases lexLt_trichot (field0 b).data (field0 a).data with h2 | h2 | h2
  · exact h h2
  · rw [h2] at hlex
    exact lexLt_irrefl _ hlex
  · rcases lex_take 10 h2 with h3 | h3
    · rw [h3] at hlex
      exact lexLt_irrefl _ hlex
    · exact lexLt_asymm h3 hlex

theorem dayOf_lt_of_ne {a b : List String} (h : leKey a b) (hne : dayOf a ≠ dayOf b) :
    List.Lex (· < ·) (dayOf a).data (dayOf b).data := by
  rcases lexLt_trichot (dayOf a).data (dayOf b).data with h2 | h2 | h2
  · exact h2
  · exact absurd (by ext1; exact h2) hne
  · exact absurd h2 (dayOf_mono h)

/-! ### Shape lemmas for canonical timestamps -/

theorem matchesShape_length :
    ∀ (ps : List (Char → Bool)) (cs : List Char), matchesShape ps cs = true →
      cs.length = ps.length
  | [], [], _ => rfl
  | [], _ :: _, h => by simp [matchesShape] at h
  | _ :: _, [], h => by simp [matchesShape] at h
  | _ :: ps, _ :: cs, h => by
    simp only [matchesShape, Bool.and_eq_true] at h
    simp only [List.length_cons, matchesShape_length ps cs h.2]

theorem canonical_length {s : String} (h : canonicalTimestamp s = true) :
    s.data.length = 19 :=
  matchesShape_length _ _ h

theorem lt_Z_of_digit {c : Char} (h : isDigitC c = true) : c < 'Z' := by
  simp only [isDigitC, Bool.and_eq_true, decide_eq_true_eq] at h
  exact lt_of_le_of_lt h.2 (by decide)

theorem canonical_head {s : String} (h : canonicalTimestamp s = true) :
    ∃ c cs, s.data = c :: cs ∧ isDigitC c = true := by
  unfold canonicalTimestamp timestampShape at h
  cases hd : s.data with
  | nil => rw [hd] at h; simp [matchesShape] at h
  | cons c cs =>
    rw [hd] at h
    simp only [matchesShape, Bool.and_eq_true] at h
    exact ⟨c, cs, rfl, h.1⟩

theorem canonical_lt_marker {s : String} (h : canonicalTimestamp s = true) :
    strLtB s.data discardMarker.data = true := by
  obtain ⟨c, cs, hd, hdig⟩ := canonical_head h
  have hz : discardMarker.data = ['Z', 'Z', 'Z', 'Z'] := rfl
  rw [hd, hz]
  simp only [strLtB, if_pos (lt_Z_of_digit hdig)]

theorem canonical_ne_marker {s : String} (h : canonicalTimestamp s = true) :
    s ≠ discardMarker := by
  intro he
  rw [he] at h
  exact absurd h (by decide)

/-! ### Normalization produces canonical rows -/

theorem isDigitC_digitChar {n : Nat} (h : n < 10) : isDigitC (Nat.digitChar n) = true := by
  interval_cases n <;> decide

theorem goTimeFormat_canonical (dt : BPDateTime) :
    canonicalTimestamp (goTimeFormat dt) = true := by
  have h10 : ∀ n : Nat, isDigitC (Nat.digitChar (n % 10)) = true := fun n =>
    isDigitC_digitChar (Nat.mod_lt n (by norm_num))
  simp [canonicalTimestamp, goTimeFormat, digitsOf4, digitsOf2, timestampShape,
    matchesShape, h10]

theorem convertBPDateTimes_normalized (recs : List (List String)) :
    ∀ r ∈ convertBPDateTimes recs, NormalizedRow r := by
  intro r hr
  simp only [convertBPDateTimes, List.mem_map] at hr
  obtain ⟨q, _, rfl⟩ := hr
  unfold convertRow
  by_cases hlen : q.length ≠ 0
  · simp only [if_pos hlen]
    cases hp : goTimeParse (field0 q) with
    | some dt =>
      exact ⟨by simp, Or.inr (by simpa [field0] using goTimeFormat_canonical dt)⟩
    | none =>
      exact ⟨by simp, Or.inl (by simp [field0])⟩
  · simp only [hlen, if_false]
    have hq : q = [] := by
      simpa using List.length_eq_zero.mp (by simpa using hlen)
    subst hq
    exact ⟨by simp, Or.inl (by simp [field0])⟩

/-! ### The value returned by the merge pass -/

theorem foldr_max_init (K : List Nat) (m c : Nat) :
    K.foldr max (max m c) = max c (K.foldr max m) := by
  induction K with
  | nil => simp [Nat.max_comm]
  | cons k K ih =>
    simp only [List.foldr_cons, ih]
    omega

theorem dayRunsAux_ne_nil (d : String) (n : Nat) (l : List (List String)) :
    dayRunsAux d n l ≠ [] := by
  induction l generalizing d n with
  | nil => simp [dayRunsAux]
  | cons r rest ih =>
    by_cases h : dayOf r = d <;> simp [dayRunsAux, h, ih]

theorem combineAux_snd (acc : List String) (d : String) (c m : Nat)
    (l : List (List String)) :
    (combineAux acc d c m l).2 = runMaxAux d c m l := by
  induction l generalizing acc d c m with
  | nil => rfl
  | cons r rest ih =>
    simp only [combineAux, runMaxAux]
    by_cases h1 : field0 r = discardMarker
    · simp [h1]
    · simp only [if_neg h1]
      by_cases h2 : dayOf r = d
      · simp only [if_pos h2]
        have hrec := ih (acc ++ r) d (c + 1) m
        rcases hout : combineAux (acc ++ r) d (c + 1) m rest with ⟨out, m2⟩
        rw [hout] at hrec
        cases out <;> simpa using hrec
      · simp only [if_neg h2]
        have hmax : (if c > m then c else m) = max m c := by
          split <;> omega
        rw [hmax]
        exact ih r (dayOf r) 1 (max m c)

theorem runMaxAux_eq (d : String) (c m : Nat) (l : List (List String)) :
    runMaxAux d c m l =
      ((dayRunsAux d c (keptPart l)).map Prod.snd).dropLast.foldr max m := by
  induction l generalizing d c m with
  | nil => simp [runMaxAux, keptPart, dayRunsAux]
  | cons r rest ih =>
    by_cases h1 : field0 r = discardMarker
    · simp [runMaxAux, keptPart, h1, dayRunsAux]
    · by_cases h2 : dayOf r = d
      · simp only [runMaxAux, if_neg h1, if_pos h2]
        rw [ih]
        have hkp : keptPart (r :: rest) = r :: keptPart rest := by
          simp [keptPart, List.takeWhile_cons, h1]
        rw [hkp]
        simp [dayRunsAux, h2]
      · simp only [runMaxAux, if_neg h1, if_neg h2]
        rw [ih]
        have hkp : keptPart (r :: rest) = r :: keptPart rest := by
          simp [keptPart, List.takeWhile_cons, h1]
        rw [hkp]
        have hruns : dayRunsAux d c (r :: keptPart rest) =
            (d, c) :: dayRunsAux (dayOf r) 1 (keptPart rest) := by
          simp [dayRunsAux, h2]
        rw [hruns]
        have hLne : (dayRunsAux (dayOf r) 1 (keptPart rest)).map Prod.snd ≠ [] := by
          simp [dayRunsAux_ne_nil]
        rw [List.map_cons, List.dropLast_cons_of_ne_nil hLne, List.foldr_cons]
        exact foldr_max_init _ m c

theorem combine_snd_eq (l : List (List String)) :
    (combineRecordsForSameDay l).2 = (perDayCounts l).dropLast.foldr max 1 := by
  cases l with
  | nil => simp [combineRecordsForSameDay, perDayCounts, keptPart, dayRuns]
  | cons r rest =>
    by_cases h : field0 r = discardMarker
    · simp [combineRecordsForSameDay, h, perDayCounts, keptPart, dayRuns]
    · simp only [combineRecordsForSameDay, if_neg h]
      rw [combineAux_snd, runMaxAux_eq]
      have hkp : keptPart (r :: rest) = r :: keptPart rest := by
        simp [keptPart, List.takeWhile_cons, h]
      simp [perDayCounts, hkp, dayRuns]

/-! ### Utilities for the merge and trim passes -/

theorem field0_append {acc : List String} (h : acc ≠ []) (r : List String) :
    field0 (acc ++ r) = field0 acc := by
  cases acc with
  | nil => exact absurd rfl h
  | cons a t => rfl

theorem dayOf_append {acc : List String} (h : acc ≠ []) (r : List String) :
    dayOf (acc ++ r) = dayOf acc := by
  unfold dayOf
  rw [field0_append h]

/-- The non-discarded records of a record set. -/
def keptOnly (l : List (List String)) : List (List String) :=
  l.filter fun r => field0 r ≠ discardMarker

theorem keptOnly_nil : keptOnly [] = [] := rfl

theorem keptOnly_cons_marker {r : List String} (h : field0 r = discardMarker)
    (t : List (List String)) : keptOnly (r :: t) = keptOnly t := by
  simp [keptOnly, List.filter_cons, h]

theorem keptOnly_cons_kept {r : List String} (h : field0 r ≠ discardMarker)
    (t : List (List String)) : keptOnly (r :: t) = r :: keptOnly t := by
  simp [keptOnly, List.filter_cons, h]

theorem keptPart_nil : keptPart [] = [] := rfl

theorem keptPart_cons_marker {r : List String} (h : field0 r = discardMarker)
    (t : List (List String)) : keptPart (r :: t) = [] := by
  simp [keptPart, List.takeWhile_cons, h]

theorem keptPart_cons_kept {r : List String} (h : field0 r ≠ discardMarker)
    (t : List (List String)) : keptPart (r :: t) = r :: keptPart t := by
  simp [keptPart, List.takeWhile_cons, h]

/-- Once a discard-marked record is reached, every following record is also
discard-marked (true of the working set after the sort, because the marker
sorts after every canonical timestamp). -/
def MarkerTail : List (List String) → Prop
  | [] => True
  | r :: rest =>
    (field0 r = discardMarker → ∀ x ∈ rest, field0 x = discardMarker) ∧ MarkerTail rest

theorem markerTail_of_sorted {l : List (List String)} (hs : List.Sorted leKey l)
    (hn : ∀ r ∈ l, NormalizedRow r) : MarkerTail l := by
  induction l with
  | nil => trivial
  | cons r rest ih =>
    rw [List.sorted_cons] at hs
    refine ⟨?_, ih hs.2 fun x hx => hn x (List.mem_cons_of_mem _ hx)⟩
    intro hmark x hx
    rcases (hn x (List.mem_cons_of_mem _ hx)).2 with h | h
    · exact h
    · exfalso
      have hk := hs.1 x hx
      rw [leKey_iff] at hk
      apply hk
      rw [hmark]
      exact (strLtB_iff_lex _ _).mp (canonical_lt_marker h)

theorem combineAux_fst_ne_nil (l : List (List String)) (acc : List String)
    (d : String) (c m : Nat) : (combineAux acc d c m l).1 ≠ [] := by
  induction l generalizing acc d c m with
  | nil => simp [combineAux]
  | cons r rest ih =>
    simp only [combineAux]
    by_cases h1 : field0 r = discardMarker
    · simp [h1]
    · simp only [if_neg h1]
      by_cases h2 : dayOf r = d
      · simp only [if_pos h2]
        rcases hout : combineAux (acc ++ r) d (c + 1) m rest with ⟨out, m2⟩
        cases out <;> simp
      · simp only [if_neg h2]
        simp

theorem keptOnly_all_marker {t : List (List String)}
    (h : ∀ x ∈ t, field0 x = discardMarker) : keptOnly t = [] := by
  induction t with
  | nil => rfl
  | cons r rest ih =>
    rw [keptOnly_cons_marker (h r (List.mem_cons_self r rest))]
    exact ih fun x hx => h x (List.mem_cons_of_mem _ hx)

theorem keptOnly_cons_cons_marker {w : List String} (hw : field0 w = discardMarker)
    (a : List String) (t : List (List String)) :
    keptOnly (a :: w :: t) = keptOnly (a :: t) := by
  by_cases ha : field0 a = discardMarker
  · rw [keptOnly_cons_marker ha, keptOnly_cons_marker hw, keptOnly_cons_marker ha]
  · rw [keptOnly_cons_kept ha, keptOnly_cons_marker hw, keptOnly_cons_kept ha]

theorem combineAux_main (l : List (List String)) :
    ∀ (acc : List String) (d : String) (c m : Nat),
      acc ≠ [] →
      field0 acc ≠ discardMarker →
      dayOf acc = d →
      (∀ r ∈ l, r ≠ []) →
      (∀ r ∈ l, leKey acc r) →
      l.Pairwise leKey →
      MarkerTail l →
      ((keptOnly (combineAux acc d c m l).1).map dayOf).Chain'
          (fun a b => List.Lex (· < ·) a.data b.data) ∧
      ((keptOnly (combineAux acc d c m l).1).map dayOf).head? = some d ∧
      (∀ x ∈ (combineAux acc d c m l).1, x ≠ [] ∧
        (field0 x = discardMarker ∨ field0 x = field0 acc ∨ field0 x ∈ l.map field0)) ∧
      ((∀ r ∈ l, r.length = 5) → acc.length = 5 * c →
        (keptOnly (combineAux acc d c m l).1).map List.length =
          ((dayRunsAux d c (keptPart l)).map Prod.snd).map (fun k => 5 * k)) := by
  induction l with
  | nil =>
    intro acc d c m h1 h2 h3 _ _ _ _
    refine ⟨?_, ?_, ?_, ?_⟩
    · simp [combineAux, keptOnly_cons_kept h2, keptOnly_nil]
    · simp [combineAux, keptOnly_cons_kept h2, keptOnly_nil, h3]
    · intro x hx
      simp only [combineAux, List.mem_singleton] at hx
      subst hx
      exact ⟨h1, Or.inr (Or.inl rfl)⟩
    · intro _ hacc
      simp [combineAux, keptOnly_cons_kept h2, keptOnly_nil, keptPart_nil, dayRunsAux, hacc]
  | cons r rest ih =>
    intro acc d c m h1 h2 h3 h4 h5 h6 h7
    by_cases hm : field0 r = discardMarker
    · -- the loop breaks at the first discard-marked record
      have hall : ∀ x ∈ r :: rest, field0 x = discardMarker := by
        intro x hx
        rcases List.mem_cons.mp hx with rfl | hx
        · exact hm
        · exact h7.1 hm x hx
      have hout : (combineAux acc d c m (r :: rest)).1 = acc :: r :: rest := by
        simp [combineAux, hm]
      have hkept : keptOnly (combineAux acc d c m (r :: rest)).1 = [acc] := by
        rw [hout, keptOnly_cons_kept h2, keptOnly_all_marker hall]
      refine ⟨?_, ?_, ?_, ?_⟩
      · simp [hkept]
      · simp [hkept, h3]
      · intro x hx
        rw [hout] at hx
        rcases List.mem_cons.mp hx with rfl | hx
        · exact ⟨h1, Or.inr (Or.inl rfl)⟩
        · exact ⟨h4 x hx, Or.inl (hall x hx)⟩
      · intro _ hacc
        rw [hkept, keptPart_cons_marker hm]
        simp [dayRunsAux, hacc]
    · by_cases hd : dayOf r = d
      · -- same-day: merge r into the accumulator
        have hacc' : acc ++ r ≠ [] := by simp [h1]
        have hf : field0 (acc ++ r) = field0 acc := field0_append h1 r
        have hdayacc : dayOf (acc ++ r) = d := by rw [dayOf_append h1, h3]
        have ihh := ih (acc ++ r) d (c + 1) m hacc' (by rw [hf]; exact h2) hdayacc
          (fun x hx => h4 x (List.mem_cons_of_mem _ hx))
          (fun x hx => by
            unfold leKey goStringLt
            rw [hf]
            exact h5 x (List.mem_cons_of_mem _ hx))
          ((List.pairwise_cons.mp h6).2) h7.2
        rcases hrec : combineAux (acc ++ r) d (c + 1) m rest with ⟨out, m2⟩
        rw [hrec] at ihh
        obtain ⟨a, t, rfl⟩ : ∃ a t, out = a :: t := by
          have := combineAux_fst_ne_nil rest (acc ++ r) d (c + 1) m
          rw [hrec] at this
          cases out with
          | nil => exact absurd rfl this
          | cons a t => exact ⟨a, t, rfl⟩
        have hout : (combineAux acc d c m (r :: rest)).1 =
            a :: (discardMarker :: r.tail) :: t := by
          simp [combineAux, hm, hd, hrec]
        have hmarked : field0 (discardMarker :: r.tail) = discardMarker := rfl
        have hkeq : keptOnly (combineAux acc d c m (r :: rest)).1 = keptOnly (a :: t) := by
          rw [hout, keptOnly_cons_cons_marker hmarked]
        refine ⟨?_, ?_, ?_, ?_⟩
        · rw [hkeq]; exact ihh.1
        · rw [hkeq]; exact ihh.2.1
        · intro x hx
          rw [hout] at hx
          rcases List.mem_cons.mp hx with hxa | hx
          · -- x = a
            subst hxa
            have := ihh.2.2.1 x (List.mem_cons_self _ _)
            refine ⟨this.1, ?_⟩
            rcases this.2 with h | h | h
            · exact Or.inl h
            · exact Or.inr (Or.inl (by rw [h, hf]))
            · exact Or.inr (Or.inr (by simp only [List.map_cons]; exact List.mem_cons_of_mem _ h))
          rcases List.mem_cons.mp hx with rfl | hx
          · exact ⟨by simp, Or.inl rfl⟩
          · have := ihh.2.2.1 x (List.mem_cons_of_mem _ hx)
            refine ⟨this.1, ?_⟩
            rcases this.2 with h | h | h
            · exact Or.inl h
            · exact Or.inr (Or.inl (by rw [h, hf]))
            · exact Or.inr (Or.inr (by simp only [List.map_cons]; exact List.mem_cons_of_mem _ h))
        · intro hw5 hacc5
          rw [hkeq]
          have hlen : (acc ++ r).length = 5 * (c + 1) := by
            rw [List.length_append, hacc5, hw5 r (List.mem_cons_self r rest)]
            ring
          rw [ihh.2.2.2 (fun x hx => hw5 x (List.mem_cons_of_mem _ hx)) hlen,
            keptPart_cons_kept hm]
          simp [dayRunsAux, hd]
      · -- new day: r becomes the accumulator
        have hr_ne : r ≠ [] := h4 r (List.mem_cons_self r rest)
        have ihh := ih r (dayOf r) 1 (if c > m then c else m) hr_ne hm rfl
          (fun x hx => h4 x (List.mem_cons_of_mem _ hx))
          (fun x hx => (List.pairwise_cons.mp h6).1 x hx)
          ((List.pairwise_cons.mp h6).2) h7.2
        rcases hrec : combineAux r (dayOf r) 1 (if c > m then c else m) rest with ⟨out, m2⟩
        rw [hrec] at ihh
        have hout : (combineAux acc d c m (r :: rest)).1 = acc :: out := by
          simp [combineAux, hm, hd, hrec]
        have hkeq : keptOnly (combineAux acc d c m (r :: rest)).1 = acc :: keptOnly out := by
          rw [hout, keptOnly_cons_kept h2]
        have hlt : List.Lex (· < ·) d.data (dayOf r).data := by
          have := dayOf_lt_of_ne (h5 r (List.mem_cons_self r rest))
            (by rw [h3]; exact fun he => hd he.symm)
          rwa [h3] at this
        refine ⟨?_, ?_, ?_, ?_⟩
        · rw [hkeq, List.map_cons]
          rw [List.chain'_cons']
          constructor
          · intro b hb
            rw [ihh.2.1] at hb
            simp only [Option.mem_def, Option.some.injEq] at hb
            rw [← hb, h3]
            exact hlt
          · exact ihh.1
        · rw [hkeq, List.map_cons, List.head?_cons, h3]
        · intro x hx
          rw [hout] at hx
          rcases List.mem_cons.mp hx with rfl | hx
          · exact ⟨h1, Or.inr (Or.inl rfl)⟩
          · have := ihh.2.2.1 x hx
            refine ⟨this.1, ?_⟩
            rcases this.2 with h | h | h
            · exact Or.inl h
            · exact Or.inr (Or.inr (by rw [h]; exact List.mem_map_of_mem _ (List.mem_cons_self r rest)))
            · exact Or.inr (Or.inr (by simp only [List.map_cons]; exact List.mem_cons_of_mem _ h))
        · intro hw5 hacc5
          rw [hkeq, List.map_cons]
          have hr5 : r.length = 5 * 1 := by
            rw [hw5 r (List.mem_cons_self r rest)]
          rw [ihh.2.2.2 (fun x hx => hw5 x (List.mem_cons_of_mem _ hx)) hr5,
            keptPart_cons_kept hm]
          simp [dayRunsAux, hd, hacc5]

theorem normalizedRow_of_shape {l : List (List String)} {x : List String}
    (hn : ∀ r ∈ l, NormalizedRow r) (hx : x ≠ [])
    (hf : field0 x = discardMarker ∨ field0 x ∈ l.map field0) : NormalizedRow x := by
  refine ⟨hx, ?_⟩
  rcases hf with h | h
  · exact Or.inl h
  · obtain ⟨y, hy, hyx⟩ := List.mem_map.mp h
    rcases (hn y hy).2 with h2 | h2
    · exact Or.inl (hyx ▸ h2)
    · exact Or.inr (hyx ▸ h2)

theorem combine_main {l : List (List String)} (hs : List.Sorted leKey l)
    (hn : ∀ r ∈ l, NormalizedRow r) :
    (∀ x ∈ (combineRecordsForSameDay l).1, NormalizedRow x) ∧
    ((keptOnly (combineRecordsForSameDay l).1).map dayOf).Chain'
        (fun a b => List.Lex (· < ·) a.data b.data) ∧
    (keptOnly l ≠ [] → keptOnly (combineRecordsForSameDay l).1 ≠ []) ∧
    ((∀ r ∈ l, r.length = 5) →
      (keptOnly (combineRecordsForSameDay l).1).map List.length =
        (perDayCounts l).map (fun k => 5 * k)) := by
  have hmt : MarkerTail l := markerTail_of_sorted hs hn
  cases l with
  | nil =>
    refine ⟨by simp [combineRecordsForSameDay], by simp [combineRecordsForSameDay, keptOnly_nil], ?_, ?_⟩
    · intro h
      exact absurd rfl h
    · intro _
      simp [combineRecordsForSameDay, keptOnly_nil, perDayCounts, keptPart_nil, dayRuns]
  | cons r rest =>
    by_cases hm : field0 r = discardMarker
    · have hall : ∀ x ∈ r :: rest, field0 x = discardMarker := by
        intro x hx
        rcases List.mem_cons.mp hx with rfl | hx
        · exact hm
        · exact hmt.1 hm x hx
      have hout : (combineRecordsForSameDay (r :: rest)).1 = r :: rest := by
        simp [combineRecordsForSameDay, hm]
      have hke : keptOnly (combineRecordsForSameDay (r :: rest)).1 = [] := by
        rw [hout]; exact keptOnly_all_marker hall
      refine ⟨?_, ?_, ?_, ?_⟩
      · intro x hx
        rw [hout] at hx
        exact hn x hx
      · simp [hke]
      · intro hk
        exact absurd (keptOnly_all_marker hall) hk
      · intro _
        rw [hke, perDayCounts, keptPart_cons_marker hm]
        simp [dayRuns]
    · have hr_ne : r ≠ [] := (hn r (List.mem_cons_self r rest)).1
      rw [List.sorted_cons] at hs
      have hmain := combineAux_main rest r (dayOf r) 1 1 hr_ne hm rfl
        (fun x hx => (hn x (List.mem_cons_of_mem _ hx)).1)
        (fun x hx => hs.1 x hx) hs.2 hmt.2
      have hout : (combineRecordsForSameDay (r :: rest)).1 =
          (combineAux r (dayOf r) 1 1 rest).1 := by
        simp [combineRecordsForSameDay, hm]
      refine ⟨?_, ?_, ?_, ?_⟩
      · intro x hx
        rw [hout] at hx
        have := hmain.2.2.1 x hx
        refine @normalizedRow_of_shape (r :: rest) x hn this.1 ?_
        rcases this.2 with h | h | h
        · exact Or.inl h
        · exact Or.inr (by rw [h]; exact List.mem_map_of_mem _ (List.mem_cons_self r rest))
        · exact Or.inr (by simp only [List.map_cons]; exact List.mem_cons_of_mem _ h)
      · rw [hout]
        exact hmain.1
      · intro _
        rw [hout]
        intro hke
        have := hmain.2.1
        rw [hke] at this
        simp at this
      · intro h5
        rw [hout, hmain.2.2.2 (fun x hx => h5 x (List.mem_cons_of_mem _ hx))
          (by rw [h5 r (List.mem_cons_self r rest)]),
          perDayCounts, keptPart_cons_kept hm]
        rfl

/-! ### The trim pass -/

theorem trimRev_all_marker (P : List (List String)) (hne : P ≠ [])
    (hall : ∀ r ∈ P, field0 r = discardMarker) :
    (trimRev P).length = 1 ∧ ∀ r ∈ trimRev P, field0 r = discardMarker := by
  induction P with
  | nil => exact absurd rfl hne
  | cons r rest ih =>
    cases rest with
    | nil =>
      refine ⟨rfl, ?_⟩
      intro x hx
      rw [List.mem_singleton.mp hx]
      exact hall r (List.mem_cons_self _ _)
    | cons q qs =>
      have : trimRev (r :: q :: qs) = trimRev (q :: qs) := by
        simp [trimRev, hall r (List.mem_cons_self _ _)]
      rw [this]
      exact ih (by simp) fun x hx => hall x (List.mem_cons_of_mem _ hx)

theorem trimRev_append_kept (M : List (List String)) (q : List String)
    (qs : List (List String)) (hM : ∀ r ∈ M, field0 r = discardMarker)
    (hq : field0 q ≠ discardMarker) :
    trimRev (M ++ q :: qs) = q :: qs := by
  induction M with
  | nil =>
    cases qs with
    | nil => rfl
    | cons x xs => simp [trimRev, hq]
  | cons m M' ih =>
    rw [List.cons_append]
    cases hMq : M' ++ q :: qs with
    | nil => simp at hMq
    | cons z zs =>
      have hm0 : field0 m = discardMarker := hM m (List.mem_cons_self _ _)
      rw [show trimRev (m :: z :: zs) = trimRev (z :: zs) by simp [trimRev, hm0]]
      rw [← hMq]
      exact ih fun x hx => hM x (List.mem_cons_of_mem _ hx)

theorem markerTail_keptOnly_eq {s : List (List String)} (h : MarkerTail s) :
    keptOnly s = keptPart s ∧
      ∀ x ∈ s.dropWhile (fun r => field0 r ≠ discardMarker), field0 x = discardMarker := by
  induction s with
  | nil => exact ⟨rfl, by simp⟩
  | cons r rest ih =>
    by_cases hm : field0 r = discardMarker
    · have hall : ∀ x ∈ rest, field0 x = discardMarker := h.1 hm
      constructor
      · rw [keptOnly_cons_marker hm, keptPart_cons_marker hm, keptOnly_all_marker hall]
      · intro x hx
        rw [List.dropWhile_cons, if_neg (by simp [hm])] at hx
        rcases List.mem_cons.mp hx with rfl | hx
        · exact hm
        · exact hall x hx
    · obtain ⟨ih1, ih2⟩ := ih h.2
      constructor
      · rw [keptOnly_cons_kept hm, keptPart_cons_kept hm, ih1]
      · intro x hx
        rw [List.dropWhile_cons, if_pos (by simp [hm])] at hx
        exact ih2 x hx

/-- On a record set whose rows are all normalized and which contains at least
one non-discarded row, the discard/trim pass returns exactly the non-discarded
rows of the sorted set. -/
theorem discardMarkedRecords_eq_keptOnly {l : List (List String)}
    (hn : ∀ r ∈ l, NormalizedRow r) (hk : keptOnly l ≠ []) :
    discardMarkedRecords l = keptOnly (sortByField0 l) := by
  have hs : List.Sorted leKey (sortByField0 l) := sortByField0_sorted l
  have hn' : ∀ r ∈ sortByField0 l, NormalizedRow r := fun r hr =>
    hn r ((sortByField0_perm l).mem_iff.mp hr)
  have hmt : MarkerTail (sortByField0 l) := markerTail_of_sorted hs hn'
  obtain ⟨hke, hdrop⟩ := markerTail_keptOnly_eq hmt
  have hkp : keptOnly (sortByField0 l) ≠ [] := by
    intro h0
    apply hk
    have hperm := ((sortByField0_perm l).filter (fun r => field0 r ≠ discardMarker))
    rw [show (List.filter (fun r => decide (field0 r ≠ discardMarker)) (sortByField0 l)) =
      keptOnly (sortByField0 l) from rfl] at hperm
    rw [h0] at hperm
    exact List.Perm.eq_nil hperm.symm
  -- split the sorted set into kept part and marked tail
  have hsplit : sortByField0 l =
      keptPart (sortByField0 l) ++
        (sortByField0 l).dropWhile (fun r => field0 r ≠ discardMarker) := by
    exact (List.takeWhile_append_dropWhile _ _).symm
  have hKne : keptPart (sortByField0 l) ≠ [] := by rw [← hke]; exact hkp
  obtain ⟨q, qs, hqs⟩ : ∃ q qs, (keptPart (sortByField0 l)).reverse = q :: qs := by
    cases hrev : (keptPart (sortByField0 l)).reverse with
    | nil => exact absurd (by simpa using congrArg List.reverse hrev) hKne
    | cons q qs => exact ⟨q, qs, rfl⟩
  have hq_mem : q ∈ keptPart (sortByField0 l) := by
    have : q ∈ (keptPart (sortByField0 l)).reverse := by rw [hqs]; exact List.mem_cons_self _ _
    exact List.mem_reverse.mp this
  have hq_kept : field0 q ≠ discardMarker := by
    have := List.mem_takeWhile_imp hq_mem
    simpa using this
  have goal1 : trimRev (sortByField0 l).reverse = (keptPart (sortByField0 l)).reverse := by
    conv_lhs => rw [hsplit]
    rw [List.reverse_append, hqs]
    rw [trimRev_append_kept _ q qs
      (fun x hx => hdrop x (List.mem_reverse.mp hx)) hq_kept]
  unfold discardMarkedRecords
  rw [goal1, List.reverse_reverse]
  exact hke.symm

/-- On a non-empty record set in which every row is discard-marked, the trim
pass keeps exactly one row (still discard-marked). -/
theorem discardMarkedRecords_all_marker {l : List (List String)} (hne : l ≠ [])
    (hall : ∀ r ∈ l, field0 r = discardMarker) :
    (discardMarkedRecords l).length = 1 ∧
      ∀ r ∈ discardMarkedRecords l, field0 r = discardMarker := by
  have hsne : (sortByField0 l).reverse ≠ [] := by
    intro h0
    apply hne
    have := (sortByField0_perm l).symm
    rw [show sortByField0 l = [] by simpa using congrArg List.reverse h0] at this
    exact this.eq_nil
  have hsall : ∀ r ∈ (sortByField0 l).reverse, field0 r = discardMarker := fun r hr =>
    hall r ((sortByField0_perm l).mem_iff.mp (List.mem_reverse.mp hr))
  obtain ⟨h1, h2⟩ := trimRev_all_marker _ hsne hsall
  unfold discardMarkedRecords
  constructor
  · simpa using h1
  · intro r hr
    exact h2 r (List.mem_reverse.mp hr)

/-! ### Arithmetic helpers for the fold of max -/

theorem foldr_max_le {L : List Nat} {b c : Nat} (hb : b ≤ c) (h : ∀ x ∈ L, x ≤ c) :
    L.foldr max b ≤ c := by
  induction L with
  | nil => exact hb
  | cons x L ih =>
    simp only [List.foldr_cons]
    have h1 := h x (List.mem_cons_self _ _)
    have h2 := ih fun y hy => h y (List.mem_cons_of_mem _ hy)
    omega

theorem foldr_max_lt {L : List Nat} {b c : Nat} (hb : b < c) (h : ∀ x ∈ L, x < c) :
    L.foldr max b < c := by
  induction L with
  | nil => exact hb
  | cons x L ih =>
    simp only [List.foldr_cons]
    have h1 := h x (List.mem_cons_self _ _)
    have h2 := ih fun y hy => h y (List.mem_cons_of_mem _ hy)
    omega

theorem le_foldr_max {L : List Nat} {b x : Nat} (hx : x ∈ L) : x ≤ L.foldr max b := by
  induction L with
  | nil => exact absurd hx (List.not_mem_nil x)
  | cons y L ih =>
    simp only [List.foldr_cons]
    rcases List.mem_cons.mp hx with rfl | hx
    · omega
    · have := ih hx
      omega

theorem init_le_foldr_max (L : List Nat) (b : Nat) : b ≤ L.foldr max b := by
  induction L with
  | nil => exact le_refl b
  | cons y L ih =>
    simp only [List.foldr_cons]
    omega

theorem foldr_max_perm {l1 l2 : List Nat} (h : List.Perm l1 l2) (b : Nat) :
    l1.foldr max b = l2.foldr max b := by
  induction h with
  | nil => rfl
  | cons x _ ih => simp only [List.foldr_cons, ih]
  | swap x y l => simp only [List.foldr_cons]; omega
  | trans _ _ ih1 ih2 => rw [ih1, ih2]

theorem foldr_max_map_mul (k : Nat) (L : List Nat) (b : Nat) :
    (L.map (fun x => k * x)).foldr max (k * b) = k * L.foldr max b := by
  induction L with
  | nil => rfl
  | cons x L ih =>
    simp only [List.map_cons, List.foldr_cons, ih]
    exact Nat.mul_max_mul_left k x _

/-! ### Header width -/

theorem addHeadingSet_length (header : List String) (i : Nat) :
    (addHeadingSet header i).length = header.length + 5 := by
  simp [addHeadingSet]

theorem buildHeader_foldl_length (n : Nat) (init : List String) :
    ((List.range n).foldl (fun header i => addHeadingSet header (i + 1)) init).length =
      init.length + 5 * n := by
  induction n generalizing init with
  | zero => simp
  | succ n ih =>
    rw [List.range_succ, List.foldl_append]
    simp only [List.foldl_cons, List.foldl_nil, addHeadingSet_length, ih]
    ring

theorem buildHeaderRecord_length (n : Nat) : (buildHeaderRecord n).length = 5 * n := by
  unfold buildHeaderRecord
  rw [buildHeader_foldl_length]
  simp

/-! ### Frame facts about the normalizer -/

theorem convertBPDateTimes_length (recs : List (List String)) :
    (convertBPDateTimes recs).length = recs.length := by
  simp [convertBPDateTimes]

theorem convertBPDateTimes_widths {recs : List (List String)}
    (h5 : ∀ r ∈ recs, r.length = 5) :
    ∀ r ∈ convertBPDateTimes recs, r.length = 5 := by
  intro r hr
  simp only [convertBPDateTimes, List.mem_map] at hr
  obtain ⟨q, hq, rfl⟩ := hr
  have hq5 : q.length = 5 := h5 q hq
  have hlen : q.length ≠ 0 := by omega
  unfold convertRow
  simp only [if_pos hlen]
  cases goTimeParse (field0 q) with
  | some dt => simp [List.length_tail, hq5]
  | none => simp [List.length_tail, hq5]

/-! ### Uniqueness of the sorted order for distinct keys -/

theorem sorted_strict {s : List (List String)} (hs : List.Sorted leKey s)
    (hnd : (s.map field0).Nodup) :
    s.Pairwise (fun a b : List String =>
      List.Lex (· < ·) (field0 a).data (field0 b).data) := by
  have hne : s.Pairwise (fun a b => field0 a ≠ field0 b) := List.pairwise_map.mp hnd
  refine (hs.and hne).imp ?_
  intro a b hab
  rcases lexLt_trichot (field0 a).data (field0 b).data with h | h | h
  · exact h
  · exact absurd (by ext1; exact h) hab.2
  · exact absurd h (leKey_iff.mp hab.1)

theorem sort_unique {l1 l2 : List (List String)} (hp : List.Perm l1 l2)
    (hnd : (l1.map field0).Nodup) : sortByField0 l1 = sortByField0 l2 := by
  have hperm : List.Perm (sortByField0 l1) (sortByField0 l2) :=
    (sortByField0_perm l1).trans (hp.trans (sortByField0_perm l2).symm)
  have hnd1 : ((sortByField0 l1).map field0).Nodup :=
    (((sortByField0_perm l1).map field0).nodup_iff).mpr (by
      exact (hp.map field0).nodup_iff.mpr ((hp.map field0).nodup_iff.mp
        ((hp.map field0).nodup_iff.mpr ((hp.map field0).nodup_iff.mp hnd))))
  have hnd2 : ((sortByField0 l2).map field0).Nodup :=
    (((sortByField0_perm l2).map field0).nodup_iff).mpr ((hp.map field0).nodup_iff.mp hnd)
  haveI : IsAntisymm (List String) (fun a b : List String =>
      List.Lex (· < ·) (field0 a).data (field0 b).data) :=
    ⟨fun a b h1 h2 => absurd h2 (lexLt_asymm h1)⟩
  exact List.eq_of_perm_of_sorted hperm
    (sorted_strict (sortByField0_sorted l1) hnd1)
    (sorted_strict (sortByField0_sorted l2) hnd2)

/-! ### Chains of kept days -/

theorem chain_to_pairwise {L : List String}
    (h : L.Chain' (fun a b => List.Lex (· < ·) a.data b.data)) :
    L.Pairwise (fun a b => List.Lex (· < ·) a.data b.data) := by
  have inst : IsTrans String (fun a b => List.Lex (· < ·) a.data b.data) :=
    ⟨fun _ _ _ h1 h2 => lexLt_trans h1 h2⟩
  exact (@List.chain'_iff_pairwise String _ inst L).mp h

/-! ### The written body -/

theorem trimRev_subset (P : List (List String)) : ∀ r ∈ trimRev P, r ∈ P := by
  induction P with
  | nil => simp [trimRev]
  | cons x rest ih =>
    cases rest with
    | nil => simp [trimRev]
    | cons y ys =>
      intro r hr
      by_cases hx : field0 x = discardMarker
      · rw [show trimRev (x :: y :: ys) = trimRev (y :: ys) by simp [trimRev, hx]] at hr
        exact List.mem_cons_of_mem _ (ih r hr)
      · rw [show trimRev (x :: y :: ys) = x :: y :: ys by simp [trimRev, hx]] at hr
        exact hr

theorem discardMarkedRecords_subset (l : List (List String)) :
    ∀ r ∈ discardMarkedRecords l, r ∈ l := by
  intro r hr
  unfold discardMarkedRecords at hr
  have h1 := trimRev_subset _ r (List.mem_reverse.mp hr)
  exact (sortByField0_perm l).mem_iff.mp (List.mem_reverse.mp h1)

theorem discardMarkedRecords_nil : discardMarkedRecords [] = [] := rfl

theorem sortInput_body_eq (recs : List (List String)) :
    (sortInput recs).2 =
      discardMarkedRecords
        (combineRecordsForSameDay (sortByField0 (convertBPDateTimes recs))).1 := rfl

theorem sortInput_body_normalized (recs : List (List String)) :
    ∀ x ∈ (sortInput recs).2, NormalizedRow x := by
  intro x hx
  rw [sortInput_body_eq] at hx
  have hsN : List.Sorted leKey (sortByField0 (convertBPDateTimes recs)) :=
    sortByField0_sorted _
  have hnN : ∀ r ∈ sortByField0 (convertBPDateTimes recs), NormalizedRow r := fun r hr =>
    convertBPDateTimes_normalized recs r ((sortByField0_perm _).mem_iff.mp hr)
  exact (combine_main hsN hnN).1 x (discardMarkedRecords_subset _ x hx)

theorem keptOnly_perm {l1 l2 : List (List String)} (h : List.Perm l1 l2) :
    List.Perm (keptOnly l1) (keptOnly l2) := by
  unfold keptOnly
  exact h.filter _

theorem sortInput_body_days (recs : List (List String)) :
    (((sortInput recs).2).map dayOf).Pairwise (fun a b => goStringLt a b = true) := by
  have hsN : List.Sorted leKey (sortByField0 (convertBPDateTimes recs)) :=
    sortByField0_sorted _
  have hnN : ∀ r ∈ sortByField0 (convertBPDateTimes recs), NormalizedRow r := fun r hr =>
    convertBPDateTimes_normalized recs r ((sortByField0_perm _).mem_iff.mp hr)
  have hcm := combine_main hsN hnN
  by_cases hk :
      keptOnly (combineRecordsForSameDay (sortByField0 (convertBPDateTimes recs))).1 = []
  · by_cases hout0 :
        (combineRecordsForSameDay (sortByField0 (convertBPDateTimes recs))).1 = []
    · rw [sortInput_body_eq, hout0, discardMarkedRecords_nil]
      simp
    · have hall : ∀ x ∈
          (combineRecordsForSameDay (sortByField0 (convertBPDateTimes recs))).1,
          field0 x = discardMarker := by
        intro x hx
        by_contra hne
        have hmem : x ∈ keptOnly
            (combineRecordsForSameDay (sortByField0 (convertBPDateTimes recs))).1 :=
          List.mem_filter.mpr ⟨hx, by simpa using hne⟩
        rw [hk] at hmem
        exact List.not_mem_nil x hmem
      obtain ⟨h1, _⟩ := discardMarkedRecords_all_marker hout0 hall
      rw [sortInput_body_eq]
      obtain ⟨b, hb⟩ := List.length_eq_one.mp h1
      rw [hb]
      simp
  · have hbody : (sortInput recs).2 =
        keptOnly (sortByField0
          (combineRecordsForSameDay (sortByField0 (convertBPDateTimes recs))).1) := by
      rw [sortInput_body_eq]
      exact discardMarkedRecords_eq_keptOnly hcm.1 hk
    have hsorted2 : List.Sorted leKey (sortByField0
        (combineRecordsForSameDay (sortByField0 (convertBPDateTimes recs))).1) :=
      sortByField0_sorted _
    have hsortedBody : ((sortInput recs).2).Pairwise leKey := by
      rw [hbody]
      exact hsorted2.sublist (List.filter_sublist _)
    have hpm : List.Perm ((sortInput recs).2)
        (keptOnly (combineRecordsForSameDay (sortByField0 (convertBPDateTimes recs))).1) := by
      rw [hbody]
      exact keptOnly_perm (sortByField0_perm _)
    have hndOut : (((keptOnly
        (combineRecordsForSameDay (sortByField0 (convertBPDateTimes recs))).1)).map
          dayOf).Nodup := by
      have hpw := chain_to_pairwise hcm.2.1
      unfold List.Nodup
      refine hpw.imp ?_
      intro a b hlex heq
      rw [heq] at hlex
      exact absurd hlex (lexLt_irrefl _)
    have hndBody : (((sortInput recs).2).map dayOf).Nodup :=
      ((hpm.map dayOf).nodup_iff).mpr hndOut
    have hdays : ((sortInput recs).2).Pairwise
        (fun a b => dayOf a ≠ dayOf b) := List.pairwise_map.mp hndBody
    refine List.pairwise_map.mpr ((hsortedBody.and hdays).imp ?_)
    intro a b hab
    exact (strLtB_iff_lex _ _).mpr (dayOf_lt_of_ne hab.1 hab.2)

theorem convertRow_drop1 (q : List String) : (convertRow q).drop 1 = q.drop 1 := by
  unfold convertRow
  by_cases h : q.length ≠ 0
  · simp only [if_pos h]
    cases goTimeParse (field0 q) with
    | some dt => simp [List.drop_one]
    | none => simp [List.drop_one]
  · have hq : q = [] := List.length_eq_zero.mp (by simpa using h)
    subst hq
    rfl

theorem convertRow_nil : convertRow [] = [discardMarker] := rfl

theorem dayRunsAux_pos (d : String) (n : Nat) (l : List (List String)) (hn : 1 ≤ n) :
    ∀ p ∈ dayRunsAux d n l, 1 ≤ p.2 := by
  induction l generalizing d n with
  | nil =>
    intro p hp
    rw [show dayRunsAux d n [] = [(d, n)] from rfl] at hp
    rw [List.mem_singleton.mp hp]
    exact hn
  | cons r rest ih =>
    intro p hp
    unfold dayRunsAux at hp
    by_cases h : dayOf r = d
    · rw [if_pos h] at hp
      exact ih d (n + 1) (by omega) p hp
    · rw [if_neg h] at hp
      rcases List.mem_cons.mp hp with rfl | hp
      · exact hn
      · exact ih (dayOf r) 1 (le_refl 1) p hp

theorem perDayCounts_pos (l : List (List String)) : ∀ x ∈ perDayCounts l, 1 ≤ x := by
  intro x hx
  unfold perDayCounts dayRuns at hx
  cases hk : keptPart l with
  | nil => rw [hk] at hx; simp at hx
  | cons r rest =>
    rw [hk] at hx
    obtain ⟨p, hp, rfl⟩ := List.mem_map.mp hx
    exact dayRunsAux_pos (dayOf r) 1 rest (le_refl 1) p hp

theorem sortInput_eq (recs : List (List String)) :
    sortInput recs =
      (buildHeaderRecord
        (combineRecordsForSameDay (sortByField0 (convertBPDateTimes recs))).2,
       discardMarkedRecords
        (combineRecordsForSameDay (sortByField0 (convertBPDateTimes recs))).1) := rfl

theorem sortInput_header_eq (recs : List (List String)) :
    (sortInput recs).1 =
      buildHeaderRecord
        (combineRecordsForSameDay (sortByField0 (convertBPDateTimes recs))).2 := rfl

theorem sortInput_body_kept (recs : List (List String))
    (hk : keptOnly (convertBPDateTimes recs) ≠ []) :
    (∀ x ∈ (sortInput recs).2,
      field0 x ≠ discardMarker ∧ canonicalTimestamp (field0 x) = true) ∧
    List.Perm ((sortInput recs).2)
      (keptOnly (combineRecordsForSameDay (sortByField0 (convertBPDateTimes recs))).1) := by
  have hsN : List.Sorted leKey (sortByField0 (convertBPDateTimes recs)) :=
    sortByField0_sorted _
  have hnN : ∀ r ∈ sortByField0 (convertBPDateTimes recs), NormalizedRow r := fun r hr =>
    convertBPDateTimes_normalized recs r ((sortByField0_perm _).mem_iff.mp hr)
  have hcm := combine_main hsN hnN
  have hkS : keptOnly (sortByField0 (convertBPDateTimes recs)) ≠ [] := by
    intro h0
    apply hk
    have := keptOnly_perm (sortByField0_perm (convertBPDateTimes recs))
    rw [h0] at this
    exact this.symm.eq_nil
  have hkOut := hcm.2.2.1 hkS
  have hbody : (sortInput recs).2 =
      keptOnly (sortByField0
        (combineRecordsForSameDay (sortByField0 (convertBPDateTimes recs))).1) := by
    rw [sortInput_body_eq]
    exact discardMarkedRecords_eq_keptOnly hcm.1 hkOut
  constructor
  · intro x hx
    have hxk : x ∈ keptOnly (sortByField0
        (combineRecordsForSameDay (sortByField0 (convertBPDateTimes recs))).1) := by
      rw [← hbody]; exact hx
    have hkept : field0 x ≠ discardMarker := by
      have := List.of_mem_filter hxk
      simpa using this
    have hnx := sortInput_body_normalized recs x hx
    rcases hnx.2 with h | h
    · exact absurd h hkept
    · exact ⟨hkept, h⟩
  · rw [hbody]
    exact keptOnly_perm (sortByField0_perm _)

/-! ### The claims -/

/-- **C2.** The same-day merge pass updates its running maximum only at a
day-boundary transition and does not re-check it after the loop ends for the
very last accumulation run: for every record set sorted on field 0, the
integer it returns equals the maximum (floored at 1) of the per-day reading
counts of all days except the final accumulated day; consequently a final day
holding strictly more readings than every earlier day is not reflected in the
returned maximum. -/
theorem merge_max_ignores_final_run (l : List (List String))
    (_hsorted : List.Sorted leKey l) :
    (combineRecordsForSameDay l).2 = (perDayCounts l).dropLast.foldr max 1 ∧
    ∀ cfin ∈ (perDayCounts l).getLast?,
      (∀ x ∈ (perDayCounts l).dropLast, x < cfin) → 1 < cfin →
        (combineRecordsForSameDay l).2 < cfin := by
  refine ⟨combine_snd_eq l, ?_⟩
  intro cfin _ hlt h1
  rw [combine_snd_eq l]
  exact foldr_max_lt h1 hlt

/-- Witness for C2: a sorted set whose final day has two readings against one
for the earlier day; the merge pass still returns 1. -/
theorem merge_max_ignores_final_run_witness :
    List.Sorted leKey
      [["2020-01-01 08:00:00", "a", "b", "c", "d"],
       ["2020-01-02 08:00:00", "e", "f", "g", "h"],
       ["2020-01-02 09:00:00", "i", "j", "k", "l"]] ∧
    (combineRecordsForSameDay
      [["2020-01-01 08:00:00", "a", "b", "c", "d"],
       ["2020-01-02 08:00:00", "e", "f", "g", "h"],
       ["2020-01-02 09:00:00", "i", "j", "k", "l"]]).2 =
      (perDayCounts
        [["2020-01-01 08:00:00", "a", "b", "c", "d"],
         ["2020-01-02 08:00:00", "e", "f", "g", "h"],
         ["2020-01-02 09:00:00", "i", "j", "k", "l"]]).dropLast.foldr max 1 :=
  ⟨by decide, (merge_max_ignores_final_run _ (by decide)).1⟩

/-- **C3.** For every input, the output body rows are strictly increasing in
the 10-character `YYYY-MM-DD` prefix of their first field: in particular they
are in non-decreasing date order and no two output rows share a day prefix. -/
theorem output_rows_strictly_increasing_days (recs : List (List String)) :
    (((sortInput recs).2).map dayOf).Pairwise (fun a b => goStringLt a b = true) :=
  sortInput_body_days recs

/-- **C5.** For every non-empty record set in which every row is
discard-marked, the discard/trim pass retains exactly one (still fully
discarded) row rather than truncating to zero rows: its backward scan stops
at index 0 without checking whether index 0 itself holds the marker. -/
theorem all_discarded_keeps_one_row (l : List (List String)) (hne : l ≠ [])
    (hall : ∀ r ∈ l, field0 r = discardMarker) :
    (discardMarkedRecords l).length = 1 ∧
      ∀ r ∈ discardMarkedRecords l, field0 r = discardMarker :=
  discardMarkedRecords_all_marker hne hall

/-- Witness for C5: a single discard-marked row survives the trim. -/
theorem all_discarded_keeps_one_row_witness :
    (discardMarkedRecords [["ZZZZ", "a", "b", "c", "d"]]).length = 1 ∧
      field0 ["ZZZZ", "a", "b", "c", "d"] = discardMarker :=
  ⟨(all_discarded_keeps_one_row [["ZZZZ", "a", "b", "c", "d"]] (by decide) (by decide)).1,
   (all_discarded_keeps_one_row [["ZZZZ", "a", "b", "c", "d"]] (by decide) (by decide)).2
     ["ZZZZ", "a", "b", "c", "d"] (by decide)⟩

/-- **C6.** The discard marker `"ZZZZ"` is lexicographically greater than
every valid canonical `YYYY-MM-DD HH:MM:SS` timestamp string, so after the
ascending sort on field 0 of a record set whose first fields are all either
canonical timestamps or the marker, the discard-marked rows are contiguous at
the end: in sorted order, once a row is discard-marked every later row is. -/
theorem marker_sorts_after_all_timestamps :
    (∀ s : String, canonicalTimestamp s = true → goStringLt s discardMarker = true) ∧
    ∀ l : List (List String),
      (∀ r ∈ l, field0 r = discardMarker ∨ canonicalTimestamp (field0 r) = true) →
      (sortByField0 l).Pairwise
        (fun a b => field0 a = discardMarker → field0 b = discardMarker) := by
  constructor
  · intro s h
    exact canonical_lt_marker h
  · intro l hl
    have hs := sortByField0_sorted l
    have hl' : ∀ r ∈ sortByField0 l,
        field0 r = discardMarker ∨ canonicalTimestamp (field0 r) = true :=
      fun r hr => hl r ((sortByField0_perm l).mem_iff.mp hr)
    refine hs.imp_of_mem ?_
    intro a b ha hb hk hmark
    rcases hl' b hb with h | h
    · exact h
    · exfalso
      rw [leKey_iff] at hk
      apply hk
      rw [hmark]
      exact (strLtB_iff_lex _ _).mp (canonical_lt_marker h)

/-- Witness for C6 at a concrete timestamp and record set. -/
theorem marker_sorts_after_all_timestamps_witness :
    goStringLt "2020-01-02 08:15:00" discardMarker = true ∧
    (sortByField0 [["ZZZZ"], ["2020-01-02 08:15:00", "a"]]).Pairwise
      (fun a b => field0 a = discardMarker → field0 b = discardMarker) :=
  ⟨marker_sorts_after_all_timestamps.1 "2020-01-02 08:15:00" (by decide),
   marker_sorts_after_all_timestamps.2 _ (by decide)⟩

/-- **C7.** The timestamp normalizer neither adds nor removes rows, leaves
every field beyond field 0 of every row unchanged (also on parse failure),
and turns a zero-field row into the single-field row holding the discard
marker. -/
theorem normalizer_frame (recs : List (List String)) :
    (convertBPDateTimes recs).length = recs.length ∧
    ∀ i : Nat,
      ((convertBPDateTimes recs)[i]?.map fun r => r.drop 1) =
        (recs[i]?.map fun r => r.drop 1) ∧
      (recs[i]? = some [] → (convertBPDateTimes recs)[i]? = some [discardMarker]) := by
  refine ⟨convertBPDateTimes_length recs, fun i => ⟨?_, ?_⟩⟩
  · rw [show convertBPDateTimes recs = recs.map convertRow from rfl, List.getElem?_map]
    cases recs[i]? with
    | none => rfl
    | some q => simpa using convertRow_drop1 q
  · intro h
    rw [show convertBPDateTimes recs = recs.map convertRow from rfl, List.getElem?_map, h]
    rfl

/-- Witness for C7 at a one-row input holding a zero-field row. -/
theorem normalizer_frame_witness :
    (convertBPDateTimes [[]]).length = ([[]] : List (List String)).length ∧
      (convertBPDateTimes [[]])[0]? = some [discardMarker] :=
  ⟨(normalizer_frame [[]]).1, ((normalizer_frame [[]]).2 0).2 (by decide)⟩

/-- **C8.** After timestamp normalization every row of the working set is
non-empty with field 0 either a 19-character canonical timestamp or the
discard marker; rows remain non-empty through the sort and the merge pass,
and every non-discarded sorted row's first field has at least the 10
characters sliced by the merge pass, so no field-0 access or 10-character
slice in the pipeline is out of range. -/
theorem normalized_fields_in_range (recs : List (List String)) :
    (∀ r ∈ convertBPDateTimes recs, r ≠ [] ∧
      (field0 r = discardMarker ∨
        (canonicalTimestamp (field0 r) = true ∧ (field0 r).length = 19))) ∧
    (∀ r ∈ sortByField0 (convertBPDateTimes recs), r ≠ []) ∧
    (∀ r ∈ (combineRecordsForSameDay (sortByField0 (convertBPDateTimes recs))).1,
      r ≠ []) ∧
    (∀ r ∈ sortByField0 (convertBPDateTimes recs),
      field0 r ≠ discardMarker → 10 ≤ (field0 r).length) := by
  have hnN := convertBPDateTimes_normalized recs
  have hsN : List.Sorted leKey (sortByField0 (convertBPDateTimes recs)) :=
    sortByField0_sorted _
  have hnS : ∀ r ∈ sortByField0 (convertBPDateTimes recs), NormalizedRow r := fun r hr =>
    hnN r ((sortByField0_perm _).mem_iff.mp hr)
  refine ⟨?_, fun r hr => (hnS r hr).1, fun r hr => ((combine_main hsN hnS).1 r hr).1, ?_⟩
  · intro r hr
    obtain ⟨h1, h2⟩ := hnN r hr
    refine ⟨h1, ?_⟩
    rcases h2 with h | h
    · exact Or.inl h
    · exact Or.inr ⟨h,
        by rw [show (field0 r).length = (field0 r).data.length from rfl, canonical_length h]⟩
  · intro r hr hne
    rcases (hnS r hr).2 with h | h
    · exact absurd h hne
    · have h19 : (field0 r).length = 19 := by
        rw [show (field0 r).length = (field0 r).data.length from rfl, canonical_length h]
      omega

/-- Witness for C8 at a two-row input (one parseable, one not). -/
theorem normalized_fields_in_range_witness :
    (["2020-01-02 08:15:00", "a", "b", "c", "d"] : List String) ≠ [] ∧
    10 ≤ (field0 ["2020-01-02 08:15:00", "a", "b", "c", "d"]).length :=
  ⟨((normalized_fields_in_range
      [["Jan 02 2020 08:15:00", "a", "b", "c", "d"], [""]]).1
    ["2020-01-02 08:15:00", "a", "b", "c", "d"] (by decide)).1,
   (normalized_fields_in_range
      [["Jan 02 2020 08:15:00", "a", "b", "c", "d"], [""]]).2.2.2
    ["2020-01-02 08:15:00", "a", "b", "c", "d"] (by decide) (by decide)⟩

/-- **C9.** If the input's first record is not exactly the five canonical
column names in order (wrong field count or wrong content) — or there is no
first record at all — the conversion stops with an error before any output
is produced: the effect trace is empty, so the output file is never opened,
created or truncated. -/
theorem invalid_header_writes_nothing (input : List (List String))
    (hbad : ∀ headerRecord body, input = headerRecord :: body →
      headerRecord ≠ expectedHeader) :
    (checkForHeaderRecord input).1 = [] ∧
      (checkForHeaderRecord input).2.isSome = true := by
  cases input with
  | nil => exact ⟨rfl, rfl⟩
  | cons headerRecord body =>
    have hne : headerRecord ≠ expectedHeader := hbad headerRecord body rfl
    have hcond : headerRecord.length ≠ 5 ∨
        headerRecord.getD 0 "" ≠ "Date Time" ∨
        headerRecord.getD 1 "" ≠ "Systolic" ∨
        headerRecord.getD 2 "" ≠ "Diastolic" ∨
        headerRecord.getD 3 "" ≠ "Pulse" ∨
        headerRecord.getD 4 "" ≠ "Note" := by
      by_contra hc
      push_neg at hc
      obtain ⟨h5, h0, h1, h2, h3, h4⟩ := hc
      apply hne
      rcases headerRecord with _ | ⟨a, _ | ⟨b, _ | ⟨c, _ | ⟨d, _ | ⟨e, _ | ⟨f, t⟩⟩⟩⟩⟩⟩ <;>
        simp_all [expectedHeader, List.getD]
    have heq : checkForHeaderRecord (headerRecord :: body) =
        ([], some "header record of input file does not match blood pressure CSV format") := by
      simp only [checkForHeaderRecord]
      rw [if_pos hcond]
    rw [heq]
    exact ⟨rfl, rfl⟩

/-- Witness for C9 at a four-column header. -/
theorem invalid_header_writes_nothing_witness :
    (checkForHeaderRecord
      [["Date Time", "Systolic", "Diastolic", "Pulse"], ["Jan 02 2020 08:15:00"]]).1 = [] ∧
    (checkForHeaderRecord
      [["Date Time", "Systolic", "Diastolic", "Pulse"], ["Jan 02 2020 08:15:00"]]).2.isSome =
      true :=
  invalid_header_writes_nothing _ (fun hr bd h => by
    injection h with h1 _
    rw [← h1]
    decide)

/-- **C10.** For every input record set whose rows' normalized first fields
are pairwise distinct, the conversion output — widened header and body rows,
including the field order within each merged day row — is invariant under any
permutation of the input body rows, because the pipeline sorts on the full
normalized timestamp before merging. -/
theorem output_invariant_under_permutation (recs recs' : List (List String))
    (hperm : List.Perm recs recs')
    (hnd : ((convertBPDateTimes recs).map field0).Nodup) :
    sortInput recs = sortInput recs' := by
  have hN : List.Perm (convertBPDateTimes recs) (convertBPDateTimes recs') := by
    unfold convertBPDateTimes
    exact hperm.map _
  have hsort : sortByField0 (convertBPDateTimes recs) =
      sortByField0 (convertBPDateTimes recs') := sort_unique hN hnd
  rw [sortInput_eq, sortInput_eq, hsort]

/-- Witness for C10: swapping two rows with distinct timestamps leaves the
output unchanged. -/
theorem output_invariant_under_permutation_witness :
    sortInput [["Jan 02 2020 08:15:00", "a", "b", "c", "d"],
               ["Jan 01 2020 08:15:00", "e", "f", "g", "h"]] =
      sortInput [["Jan 01 2020 08:15:00", "e", "f", "g", "h"],
                 ["Jan 02 2020 08:15:00", "a", "b", "c", "d"]] :=
  output_invariant_under_permutation _ _ (by decide) (by decide)

/-- **C4 (amended).** A row whose timestamp is unparseable (or missing) never
appears among the output body rows, provided at least one input row carries a
parseable timestamp (at least one normalized row escapes the discard marker);
every output body row then has a canonical normalized timestamp in field 0.
When every row is discard-marked the trim pass still emits one marked row
(see the counterexample and C5). -/
theorem unparseable_rows_never_in_output (recs : List (List String))
    (hk : keptOnly (convertBPDateTimes recs) ≠ []) :
    ∀ x ∈ (sortInput recs).2,
      field0 x ≠ discardMarker ∧ canonicalTimestamp (field0 x) = true :=
  (sortInput_body_kept recs hk).1

/-- Counterexample to C4 as stated: an input whose only row is unparseable
yields that very row (still discard-marked) as an output body row. -/
theorem unparseable_rows_counterexample :
    goTimeParse "ZZZZ" = none ∧
    (sortInput [["ZZZZ", "x", "y", "z", "w"]]).2 = [["ZZZZ", "x", "y", "z", "w"]] := by
  decide

/-- Witness for the amended C4 at a mixed input: the surviving body row has a
canonical timestamp. -/
theorem unparseable_rows_never_in_output_witness :
    field0 ["2020-01-02 08:15:00", "a", "b", "c", "d"] ≠ discardMarker ∧
      canonicalTimestamp (field0 ["2020-01-02 08:15:00", "a", "b", "c", "d"]) = true :=
  unparseable_rows_never_in_output
    [["Jan 02 2020 08:15:00", "a", "b", "c", "d"], ["not a date", "e", "f", "g", "h"]]
    (by decide) ["2020-01-02 08:15:00", "a", "b", "c", "d"] (by decide)

/-- **C1 (amended).** For every input whose rows have the five source fields,
the header row width equals `5 ×` the integer returned by the merge pass,
which is the maximum (floored at 1) of the per-day reading counts of all days
except the final accumulated day; it is at most — but not always equal to —
the field width of the widest output row. -/
theorem header_width_five_times_merge_max (recs : List (List String))
    (h5 : ∀ r ∈ recs, r.length = 5) :
    (sortInput recs).1.length =
      5 * ((perDayCounts (sortByField0 (convertBPDateTimes recs))).dropLast.foldr max 1) ∧
    ((sortInput recs).2 ≠ [] →
      (sortInput recs).1.length ≤ ((sortInput recs).2.map List.length).foldr max 0) := by
  have hpart1 : (sortInput recs).1.length =
      5 * ((perDayCounts (sortByField0 (convertBPDateTimes recs))).dropLast.foldr max 1) := by
    rw [sortInput_header_eq, buildHeaderRecord_length, combine_snd_eq]
  refine ⟨hpart1, ?_⟩
  intro hne
  rw [hpart1]
  have h5N : ∀ r ∈ convertBPDateTimes recs, r.length = 5 := convertBPDateTimes_widths h5
  have h5S : ∀ r ∈ sortByField0 (convertBPDateTimes recs), r.length = 5 := fun r hr =>
    h5N r ((sortByField0_perm _).mem_iff.mp hr)
  have hsN : List.Sorted leKey (sortByField0 (convertBPDateTimes recs)) :=
    sortByField0_sorted _
  have hnN : ∀ r ∈ sortByField0 (convertBPDateTimes recs), NormalizedRow r := fun r hr =>
    convertBPDateTimes_normalized recs r ((sortByField0_perm _).mem_iff.mp hr)
  have hcm := combine_main hsN hnN
  by_cases hk : keptOnly (convertBPDateTimes recs) = []
  · by_cases hN0 : convertBPDateTimes recs = []
    · exfalso
      apply hne
      have hrecs : recs = [] := by
        have hl := convertBPDateTimes_length recs
        rw [hN0] at hl
        exact List.length_eq_zero.mp hl.symm
      rw [hrecs]
      rfl
    · have hallN : ∀ x ∈ convertBPDateTimes recs, field0 x = discardMarker := by
        intro x hx
        by_contra hxne
        have hmem : x ∈ keptOnly (convertBPDateTimes recs) :=
          List.mem_filter.mpr ⟨hx, by simpa using hxne⟩
        rw [hk] at hmem
        exact List.not_mem_nil x hmem
      have hallS : ∀ x ∈ sortByField0 (convertBPDateTimes recs),
          field0 x = discardMarker :=
        fun x hx => hallN x ((sortByField0_perm _).mem_iff.mp hx)
      have hcounts : perDayCounts (sortByField0 (convertBPDateTimes recs)) = [] := by
        cases hS : sortByField0 (convertBPDateTimes recs) with
        | nil => simp [perDayCounts, keptPart_nil, dayRuns]
        | cons r rest =>
          have hm : field0 r = discardMarker :=
            hallS r (by rw [hS]; exact List.mem_cons_self _ _)
          simp [perDayCounts, keptPart_cons_marker hm, dayRuns]
      have hout : (combineRecordsForSameDay (sortByField0 (convertBPDateTimes recs))).1 =
          sortByField0 (convertBPDateTimes recs) := by
        cases hS : sortByField0 (convertBPDateTimes recs) with
        | nil => rfl
        | cons r rest =>
          have hm : field0 r = discardMarker :=
            hallS r (by rw [hS]; exact List.mem_cons_self _ _)
          simp [combineRecordsForSameDay, hm]
      have hSne : sortByField0 (convertBPDateTimes recs) ≠ [] := by
        intro h0
        apply hN0
        have := sortByField0_perm (convertBPDateTimes recs)
        rw [h0] at this
        exact this.symm.eq_nil
      have hbody1 : ((sortInput recs).2).length = 1 := by
        rw [sortInput_body_eq, hout]
        exact (discardMarkedRecords_all_marker hSne hallS).1
      obtain ⟨b, hb⟩ := List.length_eq_one.mp hbody1
      have hbmem : b ∈ (sortInput recs).2 := by
        rw [hb]
        exact List.mem_singleton.mpr rfl
      have hblen : b.length = 5 := by
        rw [sortInput_body_eq] at hbmem
        have h1 := discardMarkedRecords_subset _ b hbmem
        rw [hout] at h1
        exact h5S b h1
      rw [hcounts, hb]
      simp [hblen]
  · obtain ⟨_, hpm⟩ := sortInput_body_kept recs hk
    have hw := hcm.2.2.2 h5S
    have hfold1 : (((sortInput recs).2).map List.length).foldr max 0 =
        ((keptOnly
          (combineRecordsForSameDay (sortByField0 (convertBPDateTimes recs))).1).map
            List.length).foldr max 0 := foldr_max_perm (hpm.map List.length) 0
    rw [hfold1, hw]
    have hmul : (((perDayCounts (sortByField0 (convertBPDateTimes recs))).map
        fun k => 5 * k).foldr max 0) =
        5 * (perDayCounts (sortByField0 (convertBPDateTimes recs))).foldr max 0 := by
      have h0 := foldr_max_map_mul 5 (perDayCounts (sortByField0 (convertBPDateTimes recs))) 0
      simpa using h0
    rw [hmul]
    apply Nat.mul_le_mul_left
    have hLne : perDayCounts (sortByField0 (convertBPDateTimes recs)) ≠ [] := by
      intro h0
      rw [h0] at hw
      have hko : keptOnly
          (combineRecordsForSameDay (sortByField0 (convertBPDateTimes recs))).1 = [] := by
        have := hw
        simp only [List.map_nil] at this
        exact List.map_eq_nil_iff.mp this
      apply hne
      rw [hko] at hpm
      exact hpm.eq_nil
    obtain ⟨x0, hx0⟩ := List.exists_mem_of_ne_nil _ hLne
    apply foldr_max_le
    · exact le_trans (perDayCounts_pos _ x0 hx0) (le_foldr_max hx0)
    · intro x hx
      exact le_foldr_max ((List.dropLast_sublist _).subset hx)

/-- Counterexample to C1 as stated: when the final day uniquely holds the
most readings, the header is narrower than both `5 ×` the true per-day
maximum and the widest output row. -/
theorem header_width_counterexample :
    ¬((sortInput [["Jan 01 2020 08:00:00", "a", "b", "c", "d"],
                  ["Jan 02 2020 08:00:00", "e", "f", "g", "h"],
                  ["Jan 02 2020 09:00:00", "i", "j", "k", "l"]]).1.length =
        5 * (perDayCounts (sortByField0 (convertBPDateTimes
              [["Jan 01 2020 08:00:00", "a", "b", "c", "d"],
               ["Jan 02 2020 08:00:00", "e", "f", "g", "h"],
               ["Jan 02 2020 09:00:00", "i", "j", "k", "l"]]))).foldr max 1 ∧
      (sortInput [["Jan 01 2020 08:00:00", "a", "b", "c", "d"],
                  ["Jan 02 2020 08:00:00", "e", "f", "g", "h"],
                  ["Jan 02 2020 09:00:00", "i", "j", "k", "l"]]).1.length =
        ((sortInput [["Jan 01 2020 08:00:00", "a", "b", "c", "d"],
                     ["Jan 02 2020 08:00:00", "e", "f", "g", "h"],
                     ["Jan 02 2020 09:00:00", "i", "j", "k", "l"]]).2.map
          List.length).foldr max 0) := by
  decide

/-- Witness for the amended C1 at the same three-row input. -/
theorem header_width_five_times_merge_max_witness :
    (sortInput [["Jan 01 2020 08:00:00", "a", "b", "c", "d"],
                ["Jan 02 2020 08:00:00", "e", "f", "g", "h"],
                ["Jan 02 2020 09:00:00", "i", "j", "k", "l"]]).1.length =
      5 * ((perDayCounts (sortByField0 (convertBPDateTimes
            [["Jan 01 2020 08:00:00", "a", "b", "c", "d"],
             ["Jan 02 2020 08:00:00", "e", "f", "g", "h"],
             ["Jan 02 2020 09:00:00", "i", "j", "k", "l"]]))).dropLast.foldr max 1) ∧
    ((sortInput [["Jan 01 2020 08:00:00", "a", "b", "c", "d"],
                 ["Jan 02 2020 08:00:00", "e", "f", "g", "h"],
                 ["Jan 02 2020 09:00:00", "i", "j", "k", "l"]]).2 ≠ [] →
      (sortInput [["Jan 01 2020 08:00:00", "a", "b", "c", "d"],
                  ["Jan 02 2020 08:00:00", "e", "f", "g", "h"],
                  ["Jan 02 2020 09:00:00", "i", "j", "k", "l"]]).1.length ≤
        ((sortInput [["Jan 01 2020 08:00:00", "a", "b", "c", "d"],
                     ["Jan 02 2020 08:00:00", "e", "f", "g", "h"],
                     ["Jan 02 2020 09:00:00", "i", "j", "k", "l"]]).2.map
          List.length).foldr max 0) :=
  header_width_five_times_merge_max _ (by decide)
